import Mathlib

/-!
# Verification of the rnote bitmap-image stroke pipeline

Shallow embedding of `rnote-engine/src/strokes/bitmapimage.rs`:
the `BitmapImage` stroke (an image buffer plus a transformed rectangle),
its rendering entry points (`gen_images`, `draw`), its shape contract
(`bounds`, `hitboxes`, translate/rotate/scale) and the two importers
(`import_from_image_bytes`, `import_from_pdf_bytes`).

Modelling conventions:
* `f64` coordinates are embedded as exact rationals `ℚ`; floating-point
  rounding is out of scope of the verified claims.
* External backends (piet drawing contexts, cairo surfaces, poppler page
  rendering, PNG codecs) are represented by explicit success/failure
  oracles carried in the input data, so that every failure path of the
  Rust code is reachable in the model.
* Fallible Rust functions returning `anyhow::Result` become `Except Unit`
  (the error payload is irrelevant to every claim).
-/

namespace Rnote

/-- 2-dimensional vector (`na::Vector2<f64>`), embedded over `ℚ`. -/
structure V2 where
  x : ℚ
  y : ℚ
deriving DecidableEq

instance : Add V2 := ⟨fun a b => ⟨a.x + b.x, a.y + b.y⟩⟩

/-- Componentwise scaling of a vector by a scalar (`size * 0.5` etc.). -/
def V2.smul (s : ℚ) (v : V2) : V2 := ⟨s * v.x, s * v.y⟩

/-- Axis-aligned bounding box (`p2d::bounding_volume::Aabb`). -/
structure Aabb where
  minsX : ℚ
  minsY : ℚ
  maxsX : ℚ
  maxsY : ℚ
deriving DecidableEq

/-- `Aabb::contains` from parry2d: componentwise
`self.mins <= other.mins && other.maxs <= self.maxs`. -/
def Aabb.contains (a b : Aabb) : Bool :=
  decide (a.minsX ≤ b.minsX) && decide (a.minsY ≤ b.minsY) &&
  decide (b.maxsX ≤ a.maxsX) && decide (b.maxsY ≤ a.maxsY)

/-- `Aabb::intersection` from parry2d: take the componentwise sup of the
mins and inf of the maxs; `None` when some resulting min exceeds the
corresponding max. -/
def Aabb.intersection (a b : Aabb) : Option Aabb :=
  let r : Aabb := ⟨max a.minsX b.minsX, max a.minsY b.minsY,
                   min a.maxsX b.maxsX, min a.maxsY b.maxsY⟩
  if r.minsX > r.maxsX ∨ r.minsY > r.maxsY then none else some r

/-- gdk memory formats as far as `bitmapimage.rs` distinguishes them: the
piet backend accepts only the premultiplied-RGBA format, any other format
makes `piet::ImageFormat::try_from` fail. -/
inductive MemoryFormat where
  | r8g8b8a8Premultiplied
  | other
deriving DecidableEq

/-- `piet::ImageFormat::try_from(memory_format)`: succeeds exactly on the
premultiplied-RGBA format. -/
def pietImageFormatTryFrom : MemoryFormat → Option Unit
  | .r8g8b8a8Premultiplied => some ()
  | .other => none

/-- `render::Image`: an owned pixel buffer with its declared dimensions,
memory format, and its own (purely informational) bounds metadata. -/
structure Image where
  pixelWidth : ℕ
  pixelHeight : ℕ
  memoryFormat : MemoryFormat
  dataLen : ℕ
  /-- The image's own stored bounds; per the source comment it must never
  be used for the stroke's bounds. -/
  rectMeta : Aabb
deriving DecidableEq

/-- 2D affine map (`na::Affine2<f64>` / `kurbo::Affine`): linear part
`[[a b],[c d]]` plus translation `(tx, ty)`. -/
structure AffineM where
  a : ℚ
  b : ℚ
  c : ℚ
  d : ℚ
  tx : ℚ
  ty : ℚ
deriving DecidableEq

/-- Identity affine map. -/
def AffineM.ident : AffineM := ⟨1, 0, 0, 1, 0, 0⟩

/-- Composition `m ∘ n` (apply `n`, then `m`). -/
def AffineM.comp (m n : AffineM) : AffineM :=
  ⟨m.a * n.a + m.b * n.c, m.a * n.b + m.b * n.d,
   m.c * n.a + m.d * n.c, m.c * n.b + m.d * n.d,
   m.a * n.tx + m.b * n.ty + m.tx, m.c * n.tx + m.d * n.ty + m.ty⟩

/-- Apply an affine map to a point. -/
def AffineM.apply (m : AffineM) (p : V2) : V2 :=
  ⟨m.a * p.x + m.b * p.y + m.tx, m.c * p.x + m.d * p.y + m.ty⟩

/-- A pure translation. -/
def AffineM.translation (v : V2) : AffineM := ⟨1, 0, 0, 1, v.x, v.y⟩

/-- `rnote_compose::transform::Transform`: wraps one affine map. -/
structure Transform where
  affine : AffineM
deriving DecidableEq

/-- `Transform::new_w_isometry` with a pure translation isometry (angle 0),
as constructed in `import_from_image_bytes`. -/
def Transform.newWIsometry (v : V2) : Transform := ⟨AffineM.translation v⟩

/-- `p2d::shape::Cuboid`: local half extents. -/
structure Cuboid where
  halfX : ℚ
  halfY : ℚ
deriving DecidableEq

/-- `Cuboid::new(half_extents)`. -/
def Cuboid.new (v : V2) : Cuboid := ⟨v.x, v.y⟩

/-- `rnote_compose::shapes::Rectangle`: a local cuboid plus a transform. -/
structure Rectangle where
  cuboid : Cuboid
  transform : Transform
deriving DecidableEq

/-- Modelled from the spec: `rnote_compose` `Rectangle::bounds` (the crate
is outside `src/`). Per the spec the bounds are derived from the current
transform applied to the local extents: the axis-aligned bounding box of
the four transformed corners of the local cuboid. -/
def Rectangle.bounds (r : Rectangle) : Aabb :=
  let m := r.transform.affine
  let c1 := m.apply ⟨-r.cuboid.halfX, -r.cuboid.halfY⟩
  let c2 := m.apply ⟨r.cuboid.halfX, -r.cuboid.halfY⟩
  let c3 := m.apply ⟨-r.cuboid.halfX, r.cuboid.halfY⟩
  let c4 := m.apply ⟨r.cuboid.halfX, r.cuboid.halfY⟩
  ⟨min (min c1.x c2.x) (min c3.x c4.x),
   min (min c1.y c2.y) (min c3.y c4.y),
   max (max c1.x c2.x) (max c3.x c4.x),
   max (max c1.y c2.y) (max c3.y c4.y)⟩

/-- Modelled from the spec: `rnote_compose` `Rectangle::translate`
(outside `src/`): appends a translation to the transform. -/
def Rectangle.translate (r : Rectangle) (offset : V2) : Rectangle :=
  { r with transform := ⟨(AffineM.translation offset).comp r.transform.affine⟩ }

/-- Modelled from the spec: `rnote_compose` `Rectangle::rotate` (outside
`src/`): appends a rotation about `center` to the transform. Since real
trigonometry is not exactly representable, the rotation's cosine and sine
are taken as rational parameters. -/
def Rectangle.rotate (r : Rectangle) (cosA sinA : ℚ) (center : V2) : Rectangle :=
  let rot : AffineM := ⟨cosA, -sinA, sinA, cosA, 0, 0⟩
  let m := ((AffineM.translation center).comp rot).comp
    ((AffineM.translation ⟨-center.x, -center.y⟩).comp r.transform.affine)
  { r with transform := ⟨m⟩ }

/-- Modelled from the spec: `rnote_compose` `Rectangle::scale` (outside
`src/`): appends a componentwise scaling to the transform. -/
def Rectangle.scale (r : Rectangle) (s : V2) : Rectangle :=
  { r with transform := ⟨(AffineM.mk s.x 0 0 s.y 0 0).comp r.transform.affine⟩ }

/-- `BitmapImage`: one image buffer plus one transformed rectangle.
The source comment states the image's own bounds metadata must not be used
for the stroke bounds. -/
structure BitmapImage where
  image : Image
  rectangle : Rectangle
deriving DecidableEq

/-- `ShapeBehaviour::bounds` for `BitmapImage`: delegates to
`rectangle.bounds()`. -/
def BitmapImage.bounds (s : BitmapImage) : Aabb := s.rectangle.bounds

/-- `ShapeBehaviour::hitboxes` for `BitmapImage`: exactly `vec![bounds()]`. -/
def BitmapImage.hitboxes (s : BitmapImage) : List Aabb := [s.bounds]

/-- `TransformBehaviour::translate` for `BitmapImage`: delegates to the
rectangle. -/
def BitmapImage.translate (s : BitmapImage) (offset : V2) : BitmapImage :=
  { s with rectangle := s.rectangle.translate offset }

/-- `TransformBehaviour::rotate` for `BitmapImage`: delegates to the
rectangle. -/
def BitmapImage.rotate (s : BitmapImage) (cosA sinA : ℚ) (center : V2) : BitmapImage :=
  { s with rectangle := s.rectangle.rotate cosA sinA center }

/-- `TransformBehaviour::scale` for `BitmapImage`: delegates to the
rectangle. -/
def BitmapImage.scale (s : BitmapImage) (factor : V2) : BitmapImage :=
  { s with rectangle := s.rectangle.scale factor }

/-! ## Rasterization: `gen_images` -/

/-- A raster tile produced by `render::Image::gen_with_piet`: it covers
exactly the bounds it was generated for, at the given scale. -/
structure RenderedImage where
  bounds : Aabb
  scale : ℚ
deriving DecidableEq

/-- `GeneratedStrokeImages` from `strokebehaviour.rs`. -/
inductive GeneratedStrokeImages where
  | Full (images : List RenderedImage)
  | Partial (images : List RenderedImage) (viewport : Aabb)
deriving DecidableEq

/-- `render::Image::gen_with_piet(draw, bounds, scale)`: rasterizes the
draw closure over `bounds`. The drawing backend's success is an oracle
(`renderOk`); on success the produced image covers exactly `bounds`. -/
def genWithPiet (renderOk : Aabb → ℚ → Bool) (bounds : Aabb) (scale : ℚ) :
    Except Unit RenderedImage :=
  if renderOk bounds scale then .ok ⟨bounds, scale⟩ else .error ()

/-- `StrokeBehaviour::gen_images` for `BitmapImage`: full render when the
viewport contains the stroke bounds, a single intersection-sized partial
render when they merely intersect, and an empty partial result otherwise.
`renderOk` is the drawing-backend oracle of `gen_with_piet`. -/
def BitmapImage.genImages (renderOk : Aabb → ℚ → Bool) (s : BitmapImage)
    (viewport : Aabb) (imageScale : ℚ) : Except Unit GeneratedStrokeImages :=
  let bounds := s.bounds
  if viewport.contains bounds then
    (genWithPiet renderOk bounds imageScale).map fun img =>
      .Full [img]
  else
    match viewport.intersection bounds with
    | some intersectionBounds =>
        (genWithPiet renderOk intersectionBounds imageScale).map fun img =>
          .Partial [img] viewport
    | none => .ok (.Partial [] viewport)

/-! ## Drawing: `DrawBehaviour::draw` -/

/-- The state of a piet drawing context that `draw` interacts with: the
current transform and the stack of states saved by `save`. The backend's
fallibility (`save`, `make_image`, `restore` all return `Result` in piet)
is modelled by oracle flags. -/
structure PietCtx where
  stack : List AffineM
  current : AffineM
  saveOk : Bool
  makeImageOk : Bool
  restoreOk : Bool
deriving DecidableEq

/-- `DrawBehaviour::draw` for `BitmapImage`, as state passing: returns the
call's result together with the context state at the moment `draw`
returns. Mirrors the source order: `save()?`, then
`ImageFormat::try_from(..)?`, then `transform(..)`, then `make_image(..)?`,
then `draw_image(..)`, then `restore()?`. A failing step leaves the
context exactly as the previous steps left it. -/
def BitmapImage.draw (s : BitmapImage) (cx : PietCtx) :
    Except Unit Unit × PietCtx :=
  if !cx.saveOk then (.error (), cx)
  else
    let cx1 := { cx with stack := cx.current :: cx.stack }
    match pietImageFormatTryFrom s.image.memoryFormat with
    | none => (.error (), cx1)
    | some _ =>
      let cx2 := { cx1 with current := cx1.current.comp s.rectangle.transform.affine }
      if !cx2.makeImageOk then (.error (), cx2)
      else
        -- draw_image issues raster commands but does not change transform state
        if !cx2.restoreOk then (.error (), cx2)
        else
          match cx2.stack with
          | [] => (.error (), cx2)
          | saved :: rest => (.ok (), { cx2 with stack := rest, current := saved })

/-! ## Encoded-image import: `import_from_image_bytes` -/

/-- An encoded byte stream (PNG/JPEG/...) as the importer observes it:
what it decodes to (`none` = decode failure) and whether the subsequent
`convert_to_rgba8pre` succeeds. -/
structure EncodedBytes where
  decoded : Option Image
  convertOk : Bool
deriving DecidableEq

/-- `render::Image::convert_to_rgba8pre` on success: rewrites the buffer
into the premultiplied-RGBA memory format, keeping the dimensions. -/
def Image.convertToRgba8pre (img : Image) : Image :=
  { img with memoryFormat := .r8g8b8a8Premultiplied,
             dataLen := img.pixelWidth * img.pixelHeight * 4 }

/-- `BitmapImage::import_from_image_bytes(bytes, pos, size)`: decode,
force-convert to premultiplied RGBA, default the size to the decoded pixel
dimensions, and build a rectangle of half-extents `size * 0.5` translated
to `pos + size * 0.5`. -/
def BitmapImage.importFromImageBytes (bytes : EncodedBytes) (pos : V2)
    (size? : Option V2) : Except Unit BitmapImage :=
  match bytes.decoded with
  | none => .error ()
  | some image =>
    if !bytes.convertOk then .error ()
    else
      let image := image.convertToRgba8pre
      let size := size?.getD ⟨(image.pixelWidth : ℚ), (image.pixelHeight : ℚ)⟩
      let rectangle : Rectangle :=
        { cuboid := Cuboid.new (V2.smul (1/2) size),
          transform := Transform.newWIsometry (pos + V2.smul (1/2) size) }
      .ok { image := image, rectangle := rectangle }

/-! ## PDF import: `import_from_pdf_bytes` -/

/-- `PdfImportPageSpacing` (declared in `engine/import.rs`, used here). -/
inductive PdfImportPageSpacing where
  | continuous
  | onePerDocumentPage
deriving DecidableEq

/-- The fields of `PdfImportPrefs` that `import_from_pdf_bytes` reads. -/
structure PdfImportPrefs where
  pageWidthPerc : ℚ
  bitmapScalefactor : ℚ
  pageSpacing : PdfImportPageSpacing
deriving DecidableEq

/-- The fields of the document `Format` that `import_from_pdf_bytes`
reads. -/
structure Format where
  width : ℚ
  height : ℚ
deriving DecidableEq

/-- One poppler page as the importer observes it: its intrinsic size
(`page.size()`) plus backend oracles — whether the cairo
surface/render/PNG-encode step succeeds for this page (`renderOk`), and
whether the produced PNG later decodes in `import_from_image_bytes`
(`decodeOk`). -/
structure PdfPage where
  width : ℚ
  height : ℚ
  renderOk : Bool
  decodeOk : Bool
deriving DecidableEq

/-- A successfully parsed poppler document: its page list. -/
structure PdfDoc where
  pages : List PdfPage
deriving DecidableEq

/-- `doc.n_pages()`. -/
def PdfDoc.nPages (d : PdfDoc) : ℕ := d.pages.length

/-- `doc.page(i)`. -/
def PdfDoc.page (d : PdfDoc) (i : ℕ) : Option PdfPage := d.pages.get? i

/-- The per-page `y` advancement of the import loop:
`Continuous` advances by the page's rendered height plus half the
default import offset's y component; `OnePerDocumentPage` advances by the
document format height. `importOffsetY` stands for
`Stroke::IMPORT_OFFSET_DEFAULT[1]` (declared in `stroke.rs`, outside this
file's sources), kept as a parameter. -/
def pageSpacingAdvance (prefs : PdfImportPrefs) (format : Format)
    (importOffsetY height : ℚ) : ℚ :=
  match prefs.pageSpacing with
  | .continuous => height + importOffsetY * (1/2)
  | .onePerDocumentPage => format.height

/-- Floor of a rational, computably (`Int.fdiv` is floor division). -/
def ratFloor (x : ℚ) : ℤ := Int.fdiv x.num x.den

/-- `f64::round`: round half away from zero. -/
def ratRound (x : ℚ) : ℤ :=
  if 0 ≤ x then ratFloor (x + 1/2) else -(ratFloor (-x + 1/2))

/-- The image a PNG decoder yields for a page rendered into a cairo
surface of dimensions `round(width * bitmap_scalefactor)` by
`round(height * bitmap_scalefactor)`. -/
def pngDecodedImage (prefs : PdfImportPrefs) (width height : ℚ) : Image :=
  let surfaceWidth := (ratRound (width * prefs.bitmapScalefactor)).toNat
  let surfaceHeight := (ratRound (height * prefs.bitmapScalefactor)).toNat
  { pixelWidth := surfaceWidth, pixelHeight := surfaceHeight,
    memoryFormat := .other,
    dataLen := surfaceWidth * surfaceHeight * 4,
    rectMeta := ⟨0, 0, 0, 0⟩ }

/-- The PNG bytes produced for one page: decodes (iff the page's decode
oracle allows) to the surface-sized image; conversion to premultiplied
RGBA succeeds. -/
def pagePng (prefs : PdfImportPrefs) (p : PdfPage) (width height : ℚ) :
    EncodedBytes :=
  { decoded := if p.decodeOk then some (pngDecodedImage prefs width height) else none,
    convertOk := true }

/-- One record of the first (sequential) stage of `import_from_pdf_bytes`:
PNG bytes, image position, image size. -/
abbrev PngRecord := EncodedBytes × V2 × V2

/-- The first stage of `import_from_pdf_bytes`: the `page_range.filter_map`
loop with the mutable `y` accumulator made explicit. For each index the
page is looked up (`doc.page(i)?` skips missing pages without touching
`y`); for an existing page `y` advances by the spacing policy whether or
not the render closure succeeds, and only a successful render emits a
record positioned at the pre-advance `y`. -/
def pdfStage1 (doc : PdfDoc) (prefs : PdfImportPrefs) (format : Format)
    (importOffsetY pageZoom x : ℚ) : List ℕ → ℚ → List PngRecord
  | [], _ => []
  | i :: rest, y =>
    match doc.page i with
    | none => pdfStage1 doc prefs format importOffsetY pageZoom x rest y
    | some page =>
      let width := page.width * pageZoom
      let height := page.height * pageZoom
      let y' := y + pageSpacingAdvance prefs format importOffsetY height
      if page.renderOk then
        (pagePng prefs page width height, V2.mk x y, V2.mk width height) ::
          pdfStage1 doc prefs format importOffsetY pageZoom x rest y'
      else
        pdfStage1 doc prefs format importOffsetY pageZoom x rest y'

/-- The index list of a `Range<u32>` value `start..stop`. -/
def rangeList (r : ℕ × ℕ) : List ℕ := List.range' r.1 (r.2 - r.1)

/-- The second (parallel) stage of `import_from_pdf_bytes`, applied to one
record: decode the PNG bytes into a stroke, dropping the record on
failure. -/
def decodePng (r : PngRecord) : Option BitmapImage :=
  (BitmapImage.importFromImageBytes r.1 r.2.1 (some r.2.2)).toOption

/-- `BitmapImage::import_from_pdf_bytes` on a successfully parsed
document. The PDF-byte parsing itself happens before everything this
models; a parse failure returns `Err` without reaching this logic.
Mirrors the source: default the page range to `0..n_pages`, compute the
page zoom from the first page's width (returning `Ok(vec![])` when there
is no first page), run the sequential render stage, then the parallel
PNG-decode stage (rayon's `collect` preserves order, so it is a
`filterMap`). -/
def BitmapImage.importFromPdfBytes (doc : PdfDoc) (prefs : PdfImportPrefs)
    (insertPos : V2) (pageRange? : Option (ℕ × ℕ)) (format : Format)
    (importOffsetY : ℚ) : Except Unit (List BitmapImage) :=
  let pageRange := pageRange?.getD (0, doc.nPages)
  let pageWidth := format.width * (prefs.pageWidthPerc / 100)
  match doc.page 0 with
  | none => .ok []
  | some firstPage =>
    let pageZoom := pageWidth / firstPage.width
    let x := insertPos.x
    let pngs := pdfStage1 doc prefs format importOffsetY pageZoom x
      (rangeList pageRange) insertPos.y
    .ok (pngs.filterMap decodePng)

/-! ## Spec-side (closed-form) definitions

The following definitions are NOT part of the embedding of the source;
they restate the spec's description of `import_from_pdf_bytes` in closed
form (positions as prefix sums over the preceding in-range pages), to be
compared with the embedding above. -/

/-- Each element of a list paired with the list of elements before it. -/
def withPrefixes : List ℕ → List (List ℕ × ℕ)
  | [] => []
  | i :: rest => ([], i) :: (withPrefixes rest).map fun pr => (i :: pr.1, pr.2)

/-- The `y` advancement contributed by index `i`: the spacing advance of
the page when it exists (whether or not it renders), `0` when the
document has no such page. -/
def pageAdv (doc : PdfDoc) (prefs : PdfImportPrefs) (format : Format)
    (importOffsetY pageZoom : ℚ) (i : ℕ) : ℚ :=
  match doc.page i with
  | none => 0
  | some p => pageSpacingAdvance prefs format importOffsetY (p.height * pageZoom)

/-- Closed form of one record of the first import stage: index `pr.2`
preceded by in-range indices `pr.1` yields a record iff its page exists
and renders, positioned at `y0` plus the advances of all preceding
existing in-range pages. -/
def stage1SpecItem (doc : PdfDoc) (prefs : PdfImportPrefs) (format : Format)
    (importOffsetY pageZoom x y0 : ℚ) (pr : List ℕ × ℕ) : Option PngRecord :=
  match doc.page pr.2 with
  | none => none
  | some p =>
    if p.renderOk then
      some (pagePng prefs p (p.width * pageZoom) (p.height * pageZoom),
            V2.mk x (y0 + (pr.1.map (pageAdv doc prefs format importOffsetY pageZoom)).sum),
            V2.mk (p.width * pageZoom) (p.height * pageZoom))
    else none

/-- The stroke produced for a page of rendered size `width × height`
placed at `pos`, in closed form. -/
def pdfSpecStroke (prefs : PdfImportPrefs) (width height : ℚ) (pos : V2) :
    BitmapImage :=
  let size : V2 := ⟨width, height⟩
  { image := (pngDecodedImage prefs width height).convertToRgba8pre,
    rectangle :=
      { cuboid := Cuboid.new (V2.smul (1/2) size),
        transform := Transform.newWIsometry (pos + V2.smul (1/2) size) } }

/-- Closed form of the whole import result: one stroke per in-range index
whose page exists, renders and decodes, at prefix-sum positions. -/
def pdfSpecResult (doc : PdfDoc) (prefs : PdfImportPrefs) (format : Format)
    (importOffsetY pageZoom x y0 : ℚ) (idxs : List ℕ) : List BitmapImage :=
  (withPrefixes idxs).filterMap fun pr =>
    match doc.page pr.2 with
    | none => none
    | some p =>
      if p.renderOk && p.decodeOk then
        some (pdfSpecStroke prefs (p.width * pageZoom) (p.height * pageZoom)
          ⟨x, y0 + (pr.1.map (pageAdv doc prefs format importOffsetY pageZoom)).sum⟩)
      else none

/-- The page zoom the importer computes: the target page width (document
format width scaled by the width percentage) divided by the first page's
intrinsic width; `0` when there is no first page (the importer returns
early then). -/
def pdfPageZoom (doc : PdfDoc) (prefs : PdfImportPrefs) (format : Format) : ℚ :=
  match doc.page 0 with
  | none => 0
  | some firstPage => format.width * (prefs.pageWidthPerc / 100) / firstPage.width

/-- The rendered (document-space) height of page `i`, `0` if absent. -/
def pageHeightAt (doc : PdfDoc) (pageZoom : ℚ) (i : ℕ) : ℚ :=
  match doc.page i with
  | none => 0
  | some p => p.height * pageZoom

/-- The rendered (document-space) width of page `i`, `0` if absent. -/
def pageWidthAt (doc : PdfDoc) (pageZoom : ℚ) (i : ℕ) : ℚ :=
  match doc.page i with
  | none => 0
  | some p => p.width * pageZoom

/-- The document with every page's render oracle replaced according to
`f` (page index ↦ does its render succeed). Sizes and decode oracles are
untouched. -/
def setRenderOkAux (f : ℕ → Bool) : ℕ → List PdfPage → List PdfPage
  | _, [] => []
  | i, p :: rest => { p with renderOk := f i } :: setRenderOkAux f (i + 1) rest

/-- See `setRenderOkAux`. -/
def PdfDoc.setRenderOk (d : PdfDoc) (f : ℕ → Bool) : PdfDoc :=
  ⟨setRenderOkAux f 0 d.pages⟩

/-- Top-left corner of a stroke whose transform is a pure translation:
translation minus half-extents. -/
def strokeTopLeft (s : BitmapImage) : V2 :=
  ⟨s.rectangle.transform.affine.tx - s.rectangle.cuboid.halfX,
   s.rectangle.transform.affine.ty - s.rectangle.cuboid.halfY⟩

/-- Extent (full size) of a stroke's rectangle: twice the half-extents. -/
def strokeExtent (s : BitmapImage) : V2 :=
  ⟨2 * s.rectangle.cuboid.halfX, 2 * s.rectangle.cuboid.halfY⟩

/-- One translate/rotate/scale operation on a stroke. -/
inductive TOp where
  | translate (offset : V2)
  | rotate (cosA sinA : ℚ) (center : V2)
  | scale (factor : V2)

/-- Apply a sequence of transform operations to a stroke, left to right. -/
def applyOps : List TOp → BitmapImage → BitmapImage
  | [], s => s
  | op :: rest, s =>
    applyOps rest
      (match op with
       | .translate offset => s.translate offset
       | .rotate cosA sinA center => s.rotate cosA sinA center
       | .scale factor => s.scale factor)

/-! ## Concrete instances used by witnesses -/

/-- A sample premultiplied-RGBA image buffer. -/
def sampleImage : Image :=
  { pixelWidth := 2, pixelHeight := 3, memoryFormat := .r8g8b8a8Premultiplied,
    dataLen := 24, rectMeta := ⟨0, 0, 0, 0⟩ }

/-- A sample stroke: unit half-extents, identity transform, so its bounds
are `[-1, 1] × [-1, 1]`. -/
def sampleStroke : BitmapImage :=
  { image := sampleImage,
    rectangle := { cuboid := ⟨1, 1⟩, transform := ⟨AffineM.ident⟩ } }

/-- A stroke whose image memory format the piet backend rejects. -/
def badFormatStroke : BitmapImage :=
  { image := { sampleImage with memoryFormat := .other },
    rectangle := { cuboid := ⟨1, 1⟩, transform := ⟨AffineM.ident⟩ } }

/-- A healthy drawing context with an empty save stack. -/
def sampleCtx : PietCtx :=
  { stack := [], current := AffineM.ident,
    saveOk := true, makeImageOk := true, restoreOk := true }

/-- Encoded bytes that decode to `sampleImage` and convert fine. -/
def sampleBytes : EncodedBytes := { decoded := some sampleImage, convertOk := true }

/-- A two-page document whose pages all render and decode. -/
def sampleDoc : PdfDoc :=
  ⟨[{ width := 10, height := 20, renderOk := true, decodeOk := true },
    { width := 10, height := 30, renderOk := true, decodeOk := true }]⟩

/-- A three-page document (pages of size 10 × 20). -/
def sampleDoc3 : PdfDoc :=
  ⟨[{ width := 10, height := 20, renderOk := true, decodeOk := true },
    { width := 10, height := 20, renderOk := true, decodeOk := true },
    { width := 10, height := 20, renderOk := true, decodeOk := true }]⟩

/-- A three-page document whose middle page fails to render. -/
def failDoc3 : PdfDoc :=
  ⟨[{ width := 10, height := 20, renderOk := true, decodeOk := true },
    { width := 10, height := 20, renderOk := false, decodeOk := true },
    { width := 10, height := 20, renderOk := true, decodeOk := true }]⟩

/-- Sample import preferences: full page width, no oversampling, one page
per document page. -/
def samplePrefs : PdfImportPrefs :=
  { pageWidthPerc := 100, bitmapScalefactor := 1, pageSpacing := .onePerDocumentPage }

/-- Sample document format. -/
def sampleFormat : Format := { width := 10, height := 50 }

/-- The stroke that importing `sampleBytes` at position `(4, 5)` with no
explicit size produces. -/
def sampleImported : BitmapImage :=
  { image := sampleImage.convertToRgba8pre,
    rectangle :=
      { cuboid := Cuboid.new (V2.smul (1/2)
          ⟨(sampleImage.pixelWidth : ℚ), (sampleImage.pixelHeight : ℚ)⟩),
        transform := Transform.newWIsometry (V2.mk 4 5 + V2.smul (1/2)
          ⟨(sampleImage.pixelWidth : ℚ), (sampleImage.pixelHeight : ℚ)⟩) } }

/-! ## Helper lemmas -/

/-- Two vectors with equal components are equal. -/
lemma V2.eq_of (a b : V2) (h1 : a.x = b.x) (h2 : a.y = b.y) : a = b := by
  cases a; cases b; cases h1; cases h2; rfl

/-- First component of a vector sum. -/
lemma V2.add_x (a b : V2) : (a + b).x = a.x + b.x := rfl

/-- Second component of a vector sum. -/
lemma V2.add_y (a b : V2) : (a + b).y = a.y + b.y := rfl

/-- A rectangle's derived bounds are well-formed: mins never exceed maxs
(they are min resp. max over the same four corners). -/
lemma Rectangle.bounds_valid (r : Rectangle) :
    r.bounds.minsX ≤ r.bounds.maxsX ∧ r.bounds.minsY ≤ r.bounds.maxsY := by
  dsimp only [Rectangle.bounds]
  exact ⟨le_trans (le_trans (min_le_left _ _) (min_le_left _ _))
      (le_trans (le_max_left _ _) (le_max_left _ _)),
    le_trans (le_trans (min_le_left _ _) (min_le_left _ _))
      (le_trans (le_max_left _ _) (le_max_left _ _))⟩

/-- When the viewport contains a stroke's (well-formed) bounds, their
intersection exists and is the stroke's bounds. -/
lemma intersection_of_contains (v : Aabb) (s : BitmapImage)
    (hc : v.contains s.bounds = true) :
    v.intersection s.bounds = some s.bounds := by
  obtain ⟨hx, hy⟩ := s.rectangle.bounds_valid
  simp only [Aabb.contains, Bool.and_eq_true, decide_eq_true_eq] at hc
  obtain ⟨⟨⟨h1, h2⟩, h3⟩, h4⟩ := hc
  simp only [Aabb.intersection, max_eq_right h1, max_eq_right h2,
    min_eq_right h3, min_eq_right h4]
  rw [if_neg (by push_neg; exact ⟨hx, hy⟩)]

/-- Prepending an index to the prefix of in-range predecessors shifts the
base `y` by that index's advance. -/
lemma stage1SpecItem_shift (doc : PdfDoc) (prefs : PdfImportPrefs)
    (format : Format) (offY zoom x y : ℚ) (i : ℕ) (pr : List ℕ × ℕ) :
    stage1SpecItem doc prefs format offY zoom x y (i :: pr.1, pr.2)
      = stage1SpecItem doc prefs format offY zoom x
          (y + pageAdv doc prefs format offY zoom i) pr := by
  obtain ⟨pre, j⟩ := pr
  cases hp : doc.page j with
  | none => simp [stage1SpecItem, hp]
  | some p =>
    by_cases hr : p.renderOk <;>
      simp [stage1SpecItem, hp, hr, List.map_cons, List.sum_cons, add_assoc]

/-- Master characterization of the first import stage: the sequential
`filter_map` loop with its mutable `y` equals, in closed form, a
`filterMap` over each in-range index paired with its in-range
predecessors, with positions given by prefix sums of page advances. -/
lemma pdfStage1_eq_spec (doc : PdfDoc) (prefs : PdfImportPrefs)
    (format : Format) (offY zoom x : ℚ) :
    ∀ (idxs : List ℕ) (y : ℚ),
    pdfStage1 doc prefs format offY zoom x idxs y
      = (withPrefixes idxs).filterMap
          (stage1SpecItem doc prefs format offY zoom x y) := by
  intro idxs
  induction idxs with
  | nil => intro y; rfl
  | cons i rest ih =>
    intro y
    rw [withPrefixes, List.filterMap_cons, List.filterMap_map]
    cases hp : doc.page i with
    | none =>
      have hadv : pageAdv doc prefs format offY zoom i = 0 := by
        simp [pageAdv, hp]
      have hhead : stage1SpecItem doc prefs format offY zoom x y ([], i) = none := by
        simp [stage1SpecItem, hp]
      have hcomp : (stage1SpecItem doc prefs format offY zoom x y ∘
          fun pr => (i :: pr.1, pr.2))
          = stage1SpecItem doc prefs format offY zoom x y := by
        funext pr
        rw [Function.comp_apply, stage1SpecItem_shift, hadv, add_zero]
      rw [hhead, hcomp, ← ih y]
      simp [pdfStage1, hp]
    | some p =>
      have hadv : pageAdv doc prefs format offY zoom i
          = pageSpacingAdvance prefs format offY (p.height * zoom) := by
        simp [pageAdv, hp]
      have hcomp : (stage1SpecItem doc prefs format offY zoom x y ∘
          fun pr => (i :: pr.1, pr.2))
          = stage1SpecItem doc prefs format offY zoom x
              (y + pageSpacingAdvance prefs format offY (p.height * zoom)) := by
        funext pr
        rw [Function.comp_apply, stage1SpecItem_shift, hadv]
      rw [hcomp, ← ih]
      by_cases hr : p.renderOk
      · have hhead : stage1SpecItem doc prefs format offY zoom x y ([], i)
            = some (pagePng prefs p (p.width * zoom) (p.height * zoom),
                V2.mk x y, V2.mk (p.width * zoom) (p.height * zoom)) := by
          simp [stage1SpecItem, hp, hr]
        rw [hhead]
        simp [pdfStage1, hp, hr]
      · have hhead : stage1SpecItem doc prefs format offY zoom x y ([], i) = none := by
          simp [stage1SpecItem, hp, hr]
        rw [hhead]
        simp [pdfStage1, hp, hr]

/-- Composing one closed-form stage-1 record with the PNG-decode stage
gives the closed-form stroke: present iff the page exists, renders and
decodes. -/
lemma decodePng_stage1SpecItem (doc : PdfDoc) (prefs : PdfImportPrefs)
    (format : Format) (offY zoom x y : ℚ) (pr : List ℕ × ℕ) :
    (stage1SpecItem doc prefs format offY zoom x y pr).bind decodePng
      = match doc.page pr.2 with
        | none => none
        | some p =>
          if p.renderOk && p.decodeOk then
            some (pdfSpecStroke prefs (p.width * zoom) (p.height * zoom)
              ⟨x, y + (pr.1.map (pageAdv doc prefs format offY zoom)).sum⟩)
          else none := by
  cases hp : doc.page pr.2 with
  | none => simp [stage1SpecItem, hp]
  | some p =>
    by_cases hr : p.renderOk
    · by_cases hd : p.decodeOk
      · simp [stage1SpecItem, hp, hr, hd, decodePng,
          BitmapImage.importFromImageBytes, pagePng, pdfSpecStroke,
          Except.toOption]
      · simp [stage1SpecItem, hp, hr, hd, decodePng,
          BitmapImage.importFromImageBytes, pagePng, Except.toOption]
    · simp [stage1SpecItem, hp, hr]

/-- Characterization of the whole import on a parsed document: the result
is `Ok` of the closed-form stroke list (one stroke per in-range index
whose page exists, renders and decodes, at prefix-sum positions, sized by
the first-page zoom). -/
lemma importFromPdfBytes_eq_spec (doc : PdfDoc) (prefs : PdfImportPrefs)
    (insertPos : V2) (pageRange? : Option (ℕ × ℕ)) (format : Format)
    (offY : ℚ) :
    BitmapImage.importFromPdfBytes doc prefs insertPos pageRange? format offY
      = .ok (pdfSpecResult doc prefs format offY (pdfPageZoom doc prefs format)
          insertPos.x insertPos.y
          (rangeList (pageRange?.getD (0, doc.nPages)))) := by
  rw [BitmapImage.importFromPdfBytes]
  cases hp0 : doc.page 0 with
  | none =>
    have hpages : doc.pages = [] := by
      cases hd : doc.pages with
      | nil => rfl
      | cons q t => rw [PdfDoc.page, hd] at hp0; cases hp0
    have hnone : ∀ i, doc.page i = none := by
      intro i; simp [PdfDoc.page, hpages]
    simp only []
    congr 1
    rw [pdfSpecResult, eq_comm, List.filterMap_eq_nil_iff]
    intro pr _
    rw [hnone pr.2]
  | some fp =>
    simp only [hp0, pdfPageZoom]
    rw [pdfStage1_eq_spec, List.filterMap_filterMap, pdfSpecResult]
    refine congrArg Except.ok (List.filterMap_congr fun pr _ => ?_)
    exact decodePng_stage1SpecItem doc prefs format offY _ insertPos.x
      insertPos.y pr

/-- Membership in a `start..stop` index range. -/
lemma mem_rangeList {m : ℕ} (r : ℕ × ℕ) :
    m ∈ rangeList r ↔ r.1 ≤ m ∧ m < r.1 + (r.2 - r.1) := by
  rw [rangeList, List.mem_range']
  constructor
  · rintro ⟨i, hi, rfl⟩; omega
  · rintro ⟨h1, h2⟩; exact ⟨m - r.1, by omega, by omega⟩

/-- The page of the render-oracle-rewritten document. -/
lemma setRenderOkAux_get? (f : ℕ → Bool) :
    ∀ (l : List PdfPage) (n k : ℕ),
    (setRenderOkAux f n l).get? k
      = (l.get? k).map fun p => { p with renderOk := f (n + k) } := by
  intro l
  induction l with
  | nil => intro n k; cases k <;> rfl
  | cons p t ih =>
    intro n k
    cases k with
    | zero => simp [setRenderOkAux]
    | succ k =>
      rw [setRenderOkAux, List.get?_cons_succ, ih (n + 1) k]
      have he : n + 1 + k = n + (k + 1) := by omega
      rw [he, List.get?_cons_succ]

/-- `setRenderOk` rewrites exactly each page's render oracle. -/
lemma setRenderOk_page (doc : PdfDoc) (f : ℕ → Bool) (i : ℕ) :
    (doc.setRenderOk f).page i
      = (doc.page i).map fun p => { p with renderOk := f i } := by
  rw [PdfDoc.setRenderOk, PdfDoc.page, PdfDoc.page, setRenderOkAux_get?,
    Nat.zero_add]

/-- `setRenderOk` keeps the page count. -/
lemma setRenderOk_nPages (doc : PdfDoc) (f : ℕ → Bool) :
    (doc.setRenderOk f).nPages = doc.nPages := by
  rw [PdfDoc.nPages, PdfDoc.nPages, PdfDoc.setRenderOk]
  generalize 0 = n
  induction doc.pages generalizing n with
  | nil => rfl
  | cons p t ih => simp [setRenderOkAux, ih]

/-- `setRenderOk` keeps the page zoom (it depends only on sizes). -/
lemma setRenderOk_pageZoom (doc : PdfDoc) (f : ℕ → Bool)
    (prefs : PdfImportPrefs) (format : Format) :
    pdfPageZoom (doc.setRenderOk f) prefs format = pdfPageZoom doc prefs format := by
  rw [pdfPageZoom, pdfPageZoom, setRenderOk_page]
  cases doc.page 0 <;> rfl

/-- `setRenderOk` keeps every page advance (it depends only on sizes). -/
lemma setRenderOk_pageAdv (doc : PdfDoc) (f : ℕ → Bool)
    (prefs : PdfImportPrefs) (format : Format) (offY zoom : ℚ) :
    pageAdv (doc.setRenderOk f) prefs format offY zoom
      = pageAdv doc prefs format offY zoom := by
  funext i
  rw [pageAdv, pageAdv, setRenderOk_page]
  cases doc.page i <;> rfl

/-- C1. For every `BitmapImage`, viewport and image scale, provided the
drawing backend does not fail: `gen_images` returns `Full` with exactly
one image covering the stroke's bounds iff the viewport contains the
stroke's bounds; it returns `Partial` with zero images (viewport echoed
back) iff the viewport does not intersect the stroke's bounds; and when
the viewport intersects but does not contain the bounds, it returns
`Partial` with exactly one image covering exactly the intersection region,
viewport echoed back. -/
theorem genImages_cases (renderOk : Aabb → ℚ → Bool) (s : BitmapImage)
    (viewport : Aabb) (imageScale : ℚ) (ib : Aabb)
    (hR : ∀ b, renderOk b imageScale = true) :
    (s.genImages renderOk viewport imageScale
        = .ok (.Full [⟨s.bounds, imageScale⟩]) ↔
      viewport.contains s.bounds = true) ∧
    (s.genImages renderOk viewport imageScale
        = .ok (.Partial [] viewport) ↔
      viewport.intersection s.bounds = none) ∧
    (viewport.intersection s.bounds = some ib →
      viewport.contains s.bounds = false →
      s.genImages renderOk viewport imageScale
        = .ok (.Partial [⟨ib, imageScale⟩] viewport)) := by
  by_cases hc : viewport.contains s.bounds = true
  · have hi := intersection_of_contains viewport s hc
    refine ⟨?_, ?_, ?_⟩
    · simp [BitmapImage.genImages, genWithPiet, hc, hR, Except.map]
    · constructor
      · intro hres
        simp [BitmapImage.genImages, genWithPiet, hc, hR, Except.map] at hres
      · intro hnone
        rw [hi] at hnone
        cases hnone
    · intro _ hcf
      rw [hc] at hcf
      cases hcf
  · have hc' : viewport.contains s.bounds = false := by
      revert hc; cases viewport.contains s.bounds <;> simp
    refine ⟨?_, ?_, ?_⟩
    · cases hi : viewport.intersection s.bounds with
      | none => simp [BitmapImage.genImages, genWithPiet, hc', hi, hR, Except.map]
      | some j => simp [BitmapImage.genImages, genWithPiet, hc', hi, hR, Except.map]
    · cases hi : viewport.intersection s.bounds with
      | none => simp [BitmapImage.genImages, genWithPiet, hc', hi, hR, Except.map]
      | some j => simp [BitmapImage.genImages, genWithPiet, hc', hi, hR, Except.map]
    · intro hi _
      simp [BitmapImage.genImages, genWithPiet, hc', hi, hR, Except.map]

/-- Witness for C1: concrete stroke with bounds `[-1,1]²` and the
disjoint viewport `[5,6]²`: empty `Partial` iff no intersection, checked
at a render oracle that always succeeds. -/
theorem genImages_cases_witness :
    BitmapImage.genImages (fun _ _ => true) sampleStroke ⟨5, 5, 6, 6⟩ 1
        = .ok (.Partial [] ⟨5, 5, 6, 6⟩) ↔
      Aabb.intersection ⟨5, 5, 6, 6⟩ sampleStroke.bounds = none :=
  (genImages_cases (fun _ _ => true) sampleStroke ⟨5, 5, 6, 6⟩ 1 ⟨0, 0, 0, 0⟩
    (fun _ => rfl)).2.1

/-! ## C2: `draw` restores the context state on every exit path -/

/-- C2 (refuted, code bug): evaluating `draw` at a stroke whose image
memory format the backend rejects, in a healthy context with an empty
save stack: `draw` returns an error, yet the context's save stack is NOT
restored — the state pushed by `save` is left behind, because the `?`
early returns between `save` and `restore` skip the restore. -/
theorem draw_err_leaks_saved_state :
    (BitmapImage.draw badFormatStroke sampleCtx).1 = .error () ∧
    (BitmapImage.draw badFormatStroke sampleCtx).2.stack = [AffineM.ident] ∧
    sampleCtx.stack = [] := by
  refine ⟨rfl, rfl, rfl⟩

/-! ## C7: `import_from_image_bytes` sizing and placement -/

/-- C7. Every successful `import_from_image_bytes` call yields a stroke
whose rectangle extent equals the chosen size — the decoded pixel
dimensions when no explicit size is given — positioned with its top-left
corner at `pos` (its transform translates to `pos + size/2`). -/
theorem importFromImageBytes_size (bytes : EncodedBytes) (pos : V2)
    (size? : Option V2) (B : BitmapImage)
    (h : BitmapImage.importFromImageBytes bytes pos size? = .ok B) :
    ∃ img, bytes.decoded = some img ∧
      (size? = none →
        strokeExtent B = ⟨(img.pixelWidth : ℚ), (img.pixelHeight : ℚ)⟩) ∧
      (∀ sz, size? = some sz → strokeExtent B = sz) ∧
      strokeTopLeft B = pos ∧
      B.rectangle.transform = Transform.newWIsometry
        (pos + V2.smul (1/2)
          (size?.getD ⟨(img.pixelWidth : ℚ), (img.pixelHeight : ℚ)⟩)) := by
  cases hd : bytes.decoded with
  | none =>
    rw [BitmapImage.importFromImageBytes, hd] at h
    cases h
  | some img =>
    refine ⟨img, rfl, ?_⟩
    rw [BitmapImage.importFromImageBytes, hd] at h
    by_cases hcv : bytes.convertOk
    · simp only [hcv, Bool.not_true, Bool.false_eq_true, if_false,
        Except.ok.injEq] at h
      subst h
      refine ⟨?_, ?_, ?_, rfl⟩
      · intro hn
        subst hn
        refine V2.eq_of _ _ ?_ ?_ <;>
          · simp only [strokeExtent, Cuboid.new, V2.smul, Option.getD_none,
              Image.convertToRgba8pre]
            ring
      · intro sz hs
        subst hs
        refine V2.eq_of _ _ ?_ ?_ <;>
          · simp only [strokeExtent, Cuboid.new, V2.smul, Option.getD_some]
            ring
      · refine V2.eq_of _ _ ?_ ?_ <;>
          · simp only [strokeTopLeft, Cuboid.new, V2.smul,
              Transform.newWIsometry, AffineM.translation, V2.add_x, V2.add_y]
            ring
    · simp only [hcv] at h
      simp at h

/-- Witness for C7: importing `sampleBytes` (decodes to a 2 × 3 image)
with no explicit size. -/
theorem importFromImageBytes_size_witness :
    ∃ img, sampleBytes.decoded = some img ∧
      ((none : Option V2) = none →
        strokeExtent sampleImported = ⟨(img.pixelWidth : ℚ), (img.pixelHeight : ℚ)⟩) ∧
      (∀ sz, (none : Option V2) = some sz → strokeExtent sampleImported = sz) ∧
      strokeTopLeft sampleImported = V2.mk 4 5 ∧
      sampleImported.rectangle.transform = Transform.newWIsometry
        (V2.mk 4 5 + V2.smul (1/2)
          ((none : Option V2).getD ⟨(img.pixelWidth : ℚ), (img.pixelHeight : ℚ)⟩)) :=
  importFromImageBytes_size sampleBytes ⟨4, 5⟩ none sampleImported rfl

/-! ## C8: bounds delegate to the rectangle, hitboxes are `[bounds]` -/

/-- C8. After any sequence of translate/rotate/scale operations, a
stroke's `bounds` equals its rectangle's bounds (never anything derived
from the image's own metadata — swapping the image for any other leaves
the bounds unchanged), and `hitboxes` is exactly the one-element list
containing `bounds`. -/
theorem bounds_delegate_rectangle (ops : List TOp) (B : BitmapImage) :
    (applyOps ops B).bounds = (applyOps ops B).rectangle.bounds ∧
    (applyOps ops B).hitboxes = [(applyOps ops B).bounds] ∧
    ∀ img, (BitmapImage.mk img (applyOps ops B).rectangle).bounds
        = (applyOps ops B).bounds :=
  ⟨rfl, rfl, fun _ => rfl⟩

/-! ## C3: per-page failures are isolated -/

/-- The second component of every prefixed pair is a member of the list. -/
lemma withPrefixes_snd_mem : ∀ (l : List ℕ) (pr : List ℕ × ℕ),
    pr ∈ withPrefixes l → pr.2 ∈ l := by
  intro l
  induction l with
  | nil => intro pr h; cases h
  | cons i rest ih =>
    intro pr h
    rw [withPrefixes] at h
    rcases List.mem_cons.1 h with he | hm
    · subst he; simp
    · rcases List.mem_map.1 hm with ⟨q, hq, rfl⟩
      simp [ih q hq]

set_option maxRecDepth 4000 in
/-- C3. A page whose rendering fails is skipped and every other in-range
page is still processed, and a PNG-decode failure drops only its own
item: the import result is, in closed form, one stroke for exactly each
in-range index whose page exists, renders and decodes. Concretely, on a
three-page document whose second page fails to render, the result holds
the strokes of pages one and three (with the failed page's slot left
empty). -/
theorem importFromPdfBytes_failures_isolated :
    (∀ (doc : PdfDoc) (prefs : PdfImportPrefs) (insertPos : V2)
      (pageRange? : Option (ℕ × ℕ)) (format : Format) (offY : ℚ),
      BitmapImage.importFromPdfBytes doc prefs insertPos pageRange? format offY
        = .ok (pdfSpecResult doc prefs format offY (pdfPageZoom doc prefs format)
            insertPos.x insertPos.y
            (rangeList (pageRange?.getD (0, doc.nPages))))) ∧
    BitmapImage.importFromPdfBytes failDoc3 samplePrefs ⟨0, 0⟩ none
        sampleFormat 32
      = .ok [pdfSpecStroke samplePrefs 10 20 ⟨0, 0⟩,
             pdfSpecStroke samplePrefs 10 20 ⟨0, 100⟩] := by
  refine ⟨importFromPdfBytes_eq_spec, ?_⟩
  rw [importFromPdfBytes_eq_spec]
  refine congrArg Except.ok ?_
  with_unfolding_all decide

/-! ## C5: zero pages or fully out-of-range range give `Ok []` -/

/-- C5. On a successfully parsed document with zero pages, or with a
requested page range entirely past the document's pages,
`import_from_pdf_bytes` returns `Ok` with an empty stroke list. -/
theorem importFromPdfBytes_empty_cfg (doc : PdfDoc) (prefs : PdfImportPrefs)
    (insertPos : V2) (pageRange? : Option (ℕ × ℕ)) (format : Format)
    (offY : ℚ)
    (h : doc.pages = [] ∨
      ∀ i ∈ rangeList (pageRange?.getD (0, doc.nPages)), doc.nPages ≤ i) :
    BitmapImage.importFromPdfBytes doc prefs insertPos pageRange? format offY
      = .ok [] := by
  rw [importFromPdfBytes_eq_spec]
  refine congrArg Except.ok ?_
  rw [pdfSpecResult, List.filterMap_eq_nil_iff]
  intro pr hpr
  have hnone : doc.page pr.2 = none := by
    cases h with
    | inl he => simp [PdfDoc.page, he]
    | inr hout =>
      exact List.get?_eq_none.2
        (hout _ (withPrefixes_snd_mem _ pr hpr))
  rw [hnone]

/-- Witness for C5: a three-page document with requested range `10..20`
yields `Ok []`. -/
theorem importFromPdfBytes_empty_cfg_witness :
    BitmapImage.importFromPdfBytes sampleDoc3 samplePrefs ⟨0, 0⟩
        (some (10, 20)) sampleFormat 32 = .ok [] :=
  importFromPdfBytes_empty_cfg sampleDoc3 samplePrefs ⟨0, 0⟩ (some (10, 20))
    sampleFormat 32 (Or.inr (by decide))

/-! ## Machinery for the all-pages-succeed runs (C4, C6, C10) -/

/-- A `filterMap` that never drops is a `map`. -/
lemma filterMap_all_some {α β : Type} (f : α → Option β) (g : α → β)
    (l : List α) (h : ∀ x ∈ l, f x = some (g x)) :
    l.filterMap f = l.map g := by
  induction l with
  | nil => rfl
  | cons a t ih =>
    rw [List.filterMap_cons, h a (List.mem_cons_self a t), List.map_cons,
      ih fun b hb => h b (List.mem_cons_of_mem a hb)]

/-- `withPrefixes` keeps the list length. -/
lemma withPrefixes_length : ∀ l : List ℕ, (withPrefixes l).length = l.length := by
  intro l
  induction l with
  | nil => rfl
  | cons i rest ih => simp [withPrefixes, ih]

/-- The `k`-th prefixed pair is the `k`-th element with the first `k`
elements as its prefix. -/
lemma withPrefixes_get? : ∀ (l : List ℕ) (k : ℕ),
    (withPrefixes l).get? k = (l.get? k).map fun i => (l.take k, i) := by
  intro l
  induction l with
  | nil => intro k; cases k <;> rfl
  | cons i rest ih =>
    intro k
    cases k with
    | zero => rfl
    | succ k =>
      rw [withPrefixes, List.get?_cons_succ, List.get?_map, ih k,
        List.get?_cons_succ]
      cases rest.get? k <;> rfl

/-- When every in-range page exists, renders and decodes, the closed-form
result maps every prefixed index to its stroke. -/
lemma pdfSpecResult_allOk (doc : PdfDoc) (prefs : PdfImportPrefs)
    (format : Format) (offY zoom x y : ℚ) (idxs : List ℕ)
    (hex : ∀ i ∈ idxs, ∃ p, doc.page i = some p ∧ p.renderOk = true ∧
      p.decodeOk = true) :
    pdfSpecResult doc prefs format offY zoom x y idxs
      = (withPrefixes idxs).map fun pr =>
          pdfSpecStroke prefs (pageWidthAt doc zoom pr.2)
            (pageHeightAt doc zoom pr.2)
            ⟨x, y + (pr.1.map (pageAdv doc prefs format offY zoom)).sum⟩ := by
  rw [pdfSpecResult]
  refine filterMap_all_some _ _ _ fun pr hpr => ?_
  obtain ⟨p, hp, hr, hd⟩ := hex pr.2 (withPrefixes_snd_mem _ pr hpr)
  rw [hp]
  simp [hr, hd, pageWidthAt, pageHeightAt, hp]

/-- All-success characterization of the import at index `k`: the `k`-th
returned stroke exists, belongs to page `a + k`, and sits at the
prefix-sum position of the preceding in-range pages. -/
lemma importFromPdfBytes_allOk_get? (doc : PdfDoc) (prefs : PdfImportPrefs)
    (insertPos : V2) (format : Format) (offY : ℚ) (a b k : ℕ)
    (hex : ∀ i ∈ rangeList (a, b), ∃ p, doc.page i = some p ∧
      p.renderOk = true ∧ p.decodeOk = true)
    (hk : k < b - a) :
    ∃ p, doc.page (a + k) = some p ∧
    ∃ l, BitmapImage.importFromPdfBytes doc prefs insertPos (some (a, b))
        format offY = .ok l ∧
      l.length = b - a ∧
      l.get? k = some (pdfSpecStroke prefs
        (p.width * pdfPageZoom doc prefs format)
        (p.height * pdfPageZoom doc prefs format)
        ⟨insertPos.x, insertPos.y + (((rangeList (a, b)).take k).map
            (pageAdv doc prefs format offY (pdfPageZoom doc prefs format))).sum⟩) := by
  have hmem : a + k ∈ rangeList (a, b) := (mem_rangeList (a, b)).2 ⟨by omega, by omega⟩
  obtain ⟨p, hp, hr, hd⟩ := hex _ hmem
  refine ⟨p, hp, ?_⟩
  rw [importFromPdfBytes_eq_spec]
  simp only [Option.getD_some]
  rw [pdfSpecResult_allOk doc prefs format offY _ _ _ _ hex]
  refine ⟨_, rfl, ?_, ?_⟩
  · rw [List.length_map, withPrefixes_length, rangeList, List.length_range']
  · have hlen : k < (rangeList (a, b)).length := by
      rw [rangeList, List.length_range']; exact hk
    have hget : (rangeList (a, b)).get? k = some (a + k) := by
      have hg := List.getElem?_range' a 1 hk
      simp only [one_mul] at hg
      rw [rangeList, List.get?_eq_getElem?]
      exact hg
    rw [List.get?_map, withPrefixes_get?, hget]
    simp only [Option.map_some', pageWidthAt, pageHeightAt, hp]

/-- `strokeTopLeft` of a closed-form PDF stroke is its recorded position. -/
lemma pdfSpecStroke_topLeft (prefs : PdfImportPrefs) (w h : ℚ) (pos : V2) :
    strokeTopLeft (pdfSpecStroke prefs w h pos) = pos := by
  refine V2.eq_of _ _ ?_ ?_ <;>
    · simp only [strokeTopLeft, pdfSpecStroke, Cuboid.new, V2.smul,
        Transform.newWIsometry, AffineM.translation, V2.add_x, V2.add_y]
      ring

/-- `strokeExtent` of a closed-form PDF stroke is its recorded size. -/
lemma pdfSpecStroke_extent (prefs : PdfImportPrefs) (w h : ℚ) (pos : V2) :
    strokeExtent (pdfSpecStroke prefs w h pos) = ⟨w, h⟩ := by
  refine V2.eq_of _ _ ?_ ?_ <;>
    · simp only [strokeExtent, pdfSpecStroke, Cuboid.new, V2.smul]
      ring

/-- Summing a constant over a mapped list. -/
lemma sum_map_const_rat {α : Type} (l : List α) (c : ℚ) :
    (l.map fun _ => c).sum = l.length * c := by
  induction l with
  | nil => simp
  | cons a t ih =>
    simp only [List.map_cons, List.sum_cons, List.length_cons, ih]
    push_cast
    ring

/-! ## C4: vertical placement follows the page-spacing policy -/

/-- C4. Under `OnePerDocumentPage` spacing the `k`-th in-range page's
stroke (pages all present and successful) is placed at vertical offset
`insert_pos.y + k * format.height`, regardless of the pages' rendered
heights; under `Continuous` spacing the vertical position is the sum of
the preceding pages' rendered heights each plus half the default import
offset. -/
theorem importFromPdfBytes_page_spacing (doc : PdfDoc)
    (prefs : PdfImportPrefs) (insertPos : V2) (format : Format) (offY : ℚ)
    (a b k : ℕ)
    (hex : ∀ i ∈ rangeList (a, b), ∃ p, doc.page i = some p ∧
      p.renderOk = true ∧ p.decodeOk = true)
    (hk : k < b - a) :
    ∃ l s, BitmapImage.importFromPdfBytes doc prefs insertPos (some (a, b))
        format offY = .ok l ∧
      l.get? k = some s ∧
      (prefs.pageSpacing = .onePerDocumentPage →
        (strokeTopLeft s).y = insertPos.y + (k : ℚ) * format.height) ∧
      (prefs.pageSpacing = .continuous →
        (strokeTopLeft s).y = insertPos.y
          + (((rangeList (a, b)).take k).map
              (fun i => pageHeightAt doc (pdfPageZoom doc prefs format) i
                + offY * (1/2))).sum) := by
  obtain ⟨p, hp, l, himp, hlen, hget⟩ :=
    importFromPdfBytes_allOk_get? doc prefs insertPos format offY a b k hex hk
  refine ⟨l, _, himp, hget, ?_, ?_⟩
  · intro hsp
    rw [pdfSpecStroke_topLeft]
    have hconst : ∀ i ∈ (rangeList (a, b)).take k,
        pageAdv doc prefs format offY (pdfPageZoom doc prefs format) i
          = format.height := by
      intro i hi
      obtain ⟨q, hq, _, _⟩ := hex i (List.take_subset k _ hi)
      simp [pageAdv, hq, pageSpacingAdvance, hsp]
    have hlt : ((rangeList (a, b)).take k).length = k := by
      rw [List.length_take, rangeList, List.length_range']
      omega
    dsimp only
    rw [List.map_congr_left hconst, sum_map_const_rat, hlt]
  · intro hsp
    rw [pdfSpecStroke_topLeft]
    have hcong : ∀ i ∈ (rangeList (a, b)).take k,
        pageAdv doc prefs format offY (pdfPageZoom doc prefs format) i
          = pageHeightAt doc (pdfPageZoom doc prefs format) i + offY * (1/2) := by
      intro i hi
      obtain ⟨q, hq, _, _⟩ := hex i (List.take_subset k _ hi)
      simp [pageAdv, pageHeightAt, hq, pageSpacingAdvance, hsp]
    dsimp only
    rw [List.map_congr_left hcong]

/-- Witness for C4: two-page `sampleDoc`, one page per document page,
second stroke (k = 1). -/
theorem importFromPdfBytes_page_spacing_witness :
    ∃ l s, BitmapImage.importFromPdfBytes sampleDoc samplePrefs ⟨0, 0⟩
        (some (0, 2)) sampleFormat 32 = .ok l ∧
      l.get? 1 = some s ∧
      (samplePrefs.pageSpacing = .onePerDocumentPage →
        (strokeTopLeft s).y = (V2.mk 0 0).y + ((1 : ℕ) : ℚ) * sampleFormat.height) ∧
      (samplePrefs.pageSpacing = .continuous →
        (strokeTopLeft s).y = (V2.mk 0 0).y
          + (((rangeList (0, 2)).take 1).map
              (fun i => pageHeightAt sampleDoc
                  (pdfPageZoom sampleDoc samplePrefs sampleFormat) i
                + 32 * (1/2))).sum) :=
  importFromPdfBytes_page_spacing sampleDoc samplePrefs ⟨0, 0⟩ sampleFormat 32
    0 2 1
    (by
      intro i hi
      have hi2 : i = 0 ∨ i = 1 := by
        have := (mem_rangeList (0, 2)).1 hi
        omega
      rcases hi2 with rfl | rfl
      · exact ⟨_, rfl, rfl, rfl⟩
      · exact ⟨_, rfl, rfl, rfl⟩)
    (by decide)

/-! ## C6: one zoom factor, from the first page, for every page -/

/-- C6. The importer computes the zoom as the target page width
(`format.width * page_width_perc / 100`) divided by the FIRST page's
intrinsic width, and sizes every in-range page's stroke as that page's
own intrinsic size times this single zoom. -/
theorem importFromPdfBytes_uniform_zoom (doc : PdfDoc)
    (prefs : PdfImportPrefs) (insertPos : V2) (format : Format) (offY : ℚ)
    (a b k : ℕ)
    (hex : ∀ i ∈ rangeList (a, b), ∃ p, doc.page i = some p ∧
      p.renderOk = true ∧ p.decodeOk = true)
    (hk : k < b - a) :
    ∃ fp, doc.page 0 = some fp ∧
    ∃ l s p, BitmapImage.importFromPdfBytes doc prefs insertPos (some (a, b))
        format offY = .ok l ∧
      l.get? k = some s ∧
      doc.page (a + k) = some p ∧
      strokeExtent s
        = ⟨p.width * (format.width * (prefs.pageWidthPerc / 100) / fp.width),
           p.height * (format.width * (prefs.pageWidthPerc / 100) / fp.width)⟩ := by
  obtain ⟨p, hp, l, himp, hlen, hget⟩ :=
    importFromPdfBytes_allOk_get? doc prefs insertPos format offY a b k hex hk
  have hlen0 : 0 < doc.pages.length := by
    obtain ⟨hlt, -⟩ := List.get?_eq_some.1 hp
    omega
  obtain ⟨fp, hfp0⟩ : ∃ fp, doc.page 0 = some fp :=
    ⟨doc.pages.get ⟨0, hlen0⟩, List.get?_eq_get hlen0⟩
  refine ⟨fp, hfp0, l, _, p, himp, hget, hp, ?_⟩
  rw [pdfSpecStroke_extent]
  simp only [pdfPageZoom, hfp0]

/-- Witness for C6: two-page `sampleDoc` with pages of different heights,
second stroke (k = 1). -/
theorem importFromPdfBytes_uniform_zoom_witness :
    ∃ fp, sampleDoc.page 0 = some fp ∧
    ∃ l s p, BitmapImage.importFromPdfBytes sampleDoc samplePrefs ⟨0, 0⟩
        (some (0, 2)) sampleFormat 32 = .ok l ∧
      l.get? 1 = some s ∧
      sampleDoc.page (0 + 1) = some p ∧
      strokeExtent s
        = ⟨p.width * (sampleFormat.width * (samplePrefs.pageWidthPerc / 100) / fp.width),
           p.height * (sampleFormat.width * (samplePrefs.pageWidthPerc / 100) / fp.width)⟩ :=
  importFromPdfBytes_uniform_zoom sampleDoc samplePrefs ⟨0, 0⟩ sampleFormat 32
    0 2 1
    (by
      intro i hi
      have hi2 : i = 0 ∨ i = 1 := by
        have := (mem_rangeList (0, 2)).1 hi
        omega
      rcases hi2 with rfl | rfl
      · exact ⟨_, rfl, rfl, rfl⟩
      · exact ⟨_, rfl, rfl, rfl⟩)
    (by decide)

/-! ## C10: ranges reaching past the last page are silently clipped -/

/-- The first import stage over concatenated index lists: the second part
starts at the accumulated `y` of the first. -/
lemma pdfStage1_append (doc : PdfDoc) (prefs : PdfImportPrefs)
    (format : Format) (offY zoom x : ℚ) :
    ∀ (l1 l2 : List ℕ) (y : ℚ),
    pdfStage1 doc prefs format offY zoom x (l1 ++ l2) y
      = pdfStage1 doc prefs format offY zoom x l1 y
        ++ pdfStage1 doc prefs format offY zoom x l2
            (y + (l1.map (pageAdv doc prefs format offY zoom)).sum) := by
  intro l1
  induction l1 with
  | nil => intro l2 y; simp [pdfStage1]
  | cons i t ih =>
    intro l2 y
    cases hp : doc.page i with
    | none =>
      have hadv : pageAdv doc prefs format offY zoom i = 0 := by
        simp [pageAdv, hp]
      simp [pdfStage1, hp, ih, hadv]
    | some p =>
      have hadv : pageAdv doc prefs format offY zoom i
          = pageSpacingAdvance prefs format offY (p.height * zoom) := by
        simp [pageAdv, hp]
      by_cases hr : p.renderOk <;>
        simp [pdfStage1, hp, hr, ih, hadv, add_assoc]

/-- Indices with no page produce nothing and never move `y`. -/
lemma pdfStage1_none (doc : PdfDoc) (prefs : PdfImportPrefs)
    (format : Format) (offY zoom x : ℚ) :
    ∀ (idxs : List ℕ) (y : ℚ), (∀ i ∈ idxs, doc.page i = none) →
    pdfStage1 doc prefs format offY zoom x idxs y = [] := by
  intro idxs
  induction idxs with
  | nil => intro y _; rfl
  | cons i t ih =>
    intro y h
    have hp := h i (List.mem_cons_self i t)
    simp [pdfStage1, hp, ih _ fun j hj => h j (List.mem_cons_of_mem i hj)]

/-- C10. A page range that only partially overlaps the document gives
`Ok` with strokes for exactly the in-range indices that exist: importing
with range `a..b` where `b` reaches past the last page equals importing
with the clipped range `a..n_pages` (indices past the last page add no
stroke and no vertical advancement), and when the existing in-range pages
all succeed the result holds exactly `n_pages - a` strokes. -/
theorem importFromPdfBytes_partial_overlap (doc : PdfDoc)
    (prefs : PdfImportPrefs) (insertPos : V2) (format : Format) (offY : ℚ)
    (a b : ℕ) (hab : a ≤ doc.nPages) (hnb : doc.nPages ≤ b)
    (hex : ∀ i ∈ rangeList (a, doc.nPages), ∃ p, doc.page i = some p ∧
      p.renderOk = true ∧ p.decodeOk = true) :
    BitmapImage.importFromPdfBytes doc prefs insertPos (some (a, b)) format offY
      = BitmapImage.importFromPdfBytes doc prefs insertPos
          (some (a, doc.nPages)) format offY
    ∧ ∃ l, BitmapImage.importFromPdfBytes doc prefs insertPos (some (a, b))
          format offY = .ok l
        ∧ l.length = doc.nPages - a := by
  have hsplit : rangeList (a, b)
      = rangeList (a, doc.nPages)
        ++ List.range' doc.nPages (b - doc.nPages) := by
    have h0 := List.range'_append a (doc.nPages - a) (b - doc.nPages) 1
    simp only [one_mul] at h0
    have h1 : a + (doc.nPages - a) = doc.nPages := by omega
    have h2 : b - doc.nPages + (doc.nPages - a) = b - a := by omega
    rw [h1, h2] at h0
    rw [rangeList, rangeList]
    exact h0.symm
  have hout : ∀ i ∈ List.range' doc.nPages (b - doc.nPages),
      doc.page i = none := by
    intro i hi
    refine List.get?_eq_none.2 ?_
    rw [List.mem_range'] at hi
    obtain ⟨j, -, rfl⟩ := hi
    simp only [PdfDoc.nPages] at *
    omega
  have htrunc : BitmapImage.importFromPdfBytes doc prefs insertPos
        (some (a, b)) format offY
      = BitmapImage.importFromPdfBytes doc prefs insertPos
          (some (a, doc.nPages)) format offY := by
    simp only [BitmapImage.importFromPdfBytes, Option.getD_some]
    cases hp0 : doc.page 0 with
    | none => rfl
    | some fp =>
      refine congrArg Except.ok ?_
      rw [hsplit, pdfStage1_append, pdfStage1_none doc prefs format offY _ _ _ _ hout,
        List.append_nil]
  refine ⟨htrunc, ?_⟩
  rw [htrunc, importFromPdfBytes_eq_spec]
  simp only [Option.getD_some]
  refine ⟨_, rfl, ?_⟩
  rw [pdfSpecResult_allOk doc prefs format offY _ _ _ _ hex, List.length_map,
    withPrefixes_length, rangeList, List.length_range']

/-- Witness for C10: three-page `sampleDoc3` with requested range
`1..10`: same result as range `1..3`, two strokes. -/
theorem importFromPdfBytes_partial_overlap_witness :
    BitmapImage.importFromPdfBytes sampleDoc3 samplePrefs ⟨0, 0⟩
        (some (1, 10)) sampleFormat 32
      = BitmapImage.importFromPdfBytes sampleDoc3 samplePrefs ⟨0, 0⟩
          (some (1, sampleDoc3.nPages)) sampleFormat 32
    ∧ ∃ l, BitmapImage.importFromPdfBytes sampleDoc3 samplePrefs ⟨0, 0⟩
          (some (1, 10)) sampleFormat 32 = .ok l
        ∧ l.length = sampleDoc3.nPages - 1 :=
  importFromPdfBytes_partial_overlap sampleDoc3 samplePrefs ⟨0, 0⟩
    sampleFormat 32 1 10 (by decide) (by decide)
    (by
      intro i hi
      have hi2 : i = 1 ∨ i = 2 := by
        have h4 : 1 ≤ i ∧ i < 1 + (3 - 1) :=
          (mem_rangeList (1, sampleDoc3.nPages)).1 hi
        omega
      rcases hi2 with rfl | rfl
      · exact ⟨_, rfl, rfl, rfl⟩
      · exact ⟨_, rfl, rfl, rfl⟩)

/-! ## C9: the vertical accumulator is independent of render success -/

/-- C9. Rewriting every page's render oracle (by an arbitrary
`f : index → Bool`) yields exactly the strokes of the `f`-successful
pages, each at the same position and size as in the all-successful run:
the prefix-sum positions range over all existing preceding in-range pages
of the ORIGINAL document, whether or not those pages render, so a failed
page leaves an empty vertical slot and later pages are unaffected. -/
theorem importFromPdfBytes_positions_renderOk_independent (doc : PdfDoc)
    (f : ℕ → Bool) (prefs : PdfImportPrefs) (insertPos : V2)
    (pageRange? : Option (ℕ × ℕ)) (format : Format) (offY : ℚ) :
    BitmapImage.importFromPdfBytes (doc.setRenderOk f) prefs insertPos
        pageRange? format offY
      = .ok ((withPrefixes (rangeList (pageRange?.getD (0, doc.nPages)))).filterMap
          fun pr =>
            match doc.page pr.2 with
            | none => none
            | some p =>
              if f pr.2 && p.decodeOk then
                some (pdfSpecStroke prefs
                  (p.width * pdfPageZoom doc prefs format)
                  (p.height * pdfPageZoom doc prefs format)
                  ⟨insertPos.x, insertPos.y + (pr.1.map (pageAdv doc prefs
                      format offY (pdfPageZoom doc prefs format))).sum⟩)
              else none) := by
  rw [importFromPdfBytes_eq_spec, setRenderOk_nPages, setRenderOk_pageZoom]
  refine congrArg Except.ok ?_
  rw [pdfSpecResult]
  refine List.filterMap_congr fun pr _ => ?_
  rw [setRenderOk_pageAdv, setRenderOk_page]
  cases doc.page pr.2 with
  | none => rfl
  | some p => rfl

end Rnote
